import Mathlib

/-!
# Verification of the `nlp` tokenization core

Shallow embedding of the tokenization algorithms of the `go.rtnl.ai/nlp`
repository (syllable segmentation by the Sonority Sequencing Principle,
sentence segmentation, and the sentence-boundary predicate), together with
theorems settling the specification's claims about them.

Strings are modelled as `List Char` (Go iterates over `[]rune`, i.e. code
points).  The Go standard-library character classifiers (`unicode.IsPunct`,
`unicode.IsNumber`, `unicode.IsSpace`) are modelled by their restriction to
the Latin-1 range, which covers every code point the repository's tests and
the specification exercise.
-/

namespace NLP

/-! ## Character classification

Models of the Go `unicode` classifiers, restricted to Latin-1. -/

/-- ASCII/Latin-1 code points of Unicode category P (punctuation), as
recognized by Go's `unicode.IsPunct`.  Note `$ + < = > ^` and backtick are
category S (symbols) and are *not* punctuation in Go. -/
def goPunctChars : List Char :=
  ['!', '\x22', '#', '%', '&', '\x27', '(', ')', '*', ',', '-', '.', '/',
   ':', ';', '?', '@', '[', '\\', ']', '_', '\x7b', '\x7d',
   '\xa1', '\xa7', '\xab', '\xb6', '\xb7', '\xbb', '\xbf']

/-- Model of Go's `unicode.IsPunct` (Latin-1 range). -/
def isPunct (c : Char) : Bool := decide (c ∈ goPunctChars)

/-- White-space code points of Go's `unicode.IsSpace` (Latin-1 range). -/
def goSpaceChars : List Char :=
  ['\t', '\n', '\x0b', '\x0c', '\x0d', ' ', '\x85', '\xa0']

/-- Model of Go's `unicode.IsSpace` (Latin-1 range). -/
def isSpace (c : Char) : Bool := decide (c ∈ goSpaceChars)

/-- Decimal digit code points; Go's `unicode.IsNumber` restricted to ASCII. -/
def goDigitChars : List Char :=
  ['0', '1', '2', '3', '4', '5', '6', '7', '8', '9']

/-- Model of Go's `unicode.IsNumber` (ASCII range). -/
def isNumber (c : Char) : Bool := decide (c ∈ goDigitChars)

/-! ## SSP syllable tokenizer (`tokenize/sonority.go`)

The English configuration built by `NewSSPSyllableTokenizer`: the
`runeScoreMap` assigns sonority 3 to vowels, 2 to nasals, 1 to fricatives
and 0 to stops; `mapRuneScores` inserts both the lower- and upper-case form
of every rune.  A rune absent from the map scores 0 (Go map default). -/

/-- Sonority-3 runes (vowels), both cases, as inserted by `mapRuneScores`. -/
def score3Runes : List Char := "aeiouyAEIOUY".data

/-- Sonority-2 runes (nasals), both cases. -/
def score2Runes : List Char := "lmnrwLMNRW".data

/-- Sonority-1 runes (fricatives), both cases. -/
def score1Runes : List Char := "zvsfZVSF".data

/-- Lookup in the English `runeScoreMap`; missing runes (including the
explicit sonority-0 stops `bcdgtkpqxhj`) yield 0, exactly as a Go map
lookup does. -/
def runeScore (c : Char) : Nat :=
  if c ∈ score3Runes then 3
  else if c ∈ score2Runes then 2
  else if c ∈ score1Runes then 1
  else 0

/-- The tokenizer's `vowels` field is `"aeiouy"`; `validateSyllables` tests
`strings.ContainsAny(syllable, strings.ToLower(vowels)+strings.ToUpper(vowels))`,
i.e. membership in both cases. -/
def hasVowel (s : List Char) : Bool := s.any (fun c => decide (c ∈ score3Runes))

/-- The scan loop of `SSPSyllableTokenizer.Tokenize`: Go iterates
`i = 1 .. len-2`, looking at `runeToken[i-1]`, `runeToken[i]`,
`runeToken[i+1]`.  Here `syl` is the accumulated syllable, `prev` is
`runeToken[i-1]`, and the list argument is `runeToken[i:]`; the loop body
runs while a `next` rune exists, and the two-element epilogue of `Tokenize`
(handling the final rune) is the singleton case. -/
def sspScan (syl : List Char) (prev : Char) : List Char → List (List Char)
  | focus :: next :: rest =>
    if isPunct focus || isNumber focus || isSpace focus then
      -- punctuation / numbers / whitespace become their own unit
      syl :: [focus] :: sspScan [] focus (next :: rest)
    else if runeScore prev ≥ runeScore focus ∧ runeScore focus = runeScore next then
      -- syllable breaks after the focus rune
      (syl ++ [focus]) :: sspScan [] focus (next :: rest)
    else if runeScore prev > runeScore focus ∧ runeScore focus < runeScore next then
      -- syllable breaks before the focus rune
      syl :: sspScan [focus] focus (next :: rest)
    else
      -- no syllable break
      sspScan (syl ++ [focus]) focus (next :: rest)
  | [last] =>
    -- epilogue: append the last rune / syllable depending on the last rune
    if isPunct last then [syl, [last]] else [syl ++ [last]]
  | [] => [syl]  -- unreachable from `sspTokenize` (it requires length ≥ 3)

/-- A single-character syllable that is punctuation or whitespace: the
units `validateSyllables` treats as separators. -/
def isSepUnit : List Char → Bool
  | [c] => isPunct c || isSpace c
  | _ => false

/-- The loop of `SSPSyllableTokenizer.validateSyllables`, with
`current` the `currentSyllable` accumulator.  Empty syllables are skipped;
punctuation/whitespace singleton units flush the accumulator (and are not
themselves emitted); a syllable containing a vowel flushes the accumulator
and replaces it; a vowel-less syllable is appended to the accumulator.
After the loop, a non-empty accumulator is emitted. -/
def validateLoop (current : List Char) : List (List Char) → List (List Char)
  | [] => if current.isEmpty then [] else [current]
  | s :: rest =>
    if s.isEmpty then validateLoop current rest
    else if isSepUnit s then
      if current.isEmpty then validateLoop [] rest
      else current :: validateLoop [] rest
    else if current.isEmpty then validateLoop s rest
    else if hasVowel s then current :: validateLoop s rest
    else validateLoop (current ++ s) rest

/-- Model of `SSPSyllableTokenizer.validateSyllables`: inputs of length ≤ 1 are
returned unchanged, otherwise the merge loop runs with an empty
accumulator. -/
def validateSyllables (syls : List (List Char)) : List (List Char) :=
  if syls.length ≤ 1 then syls else validateLoop [] syls

/-- Model of `SSPSyllableTokenizer.Tokenize` (the error result is always nil and is
omitted): words of at most two runes are returned whole; otherwise the word
is scanned by trigrams starting with the first rune pre-assigned to the
syllable accumulator, and the result is validated. -/
def sspTokenize (w : List Char) : List (List Char) :=
  if w.length ≤ 2 then [w]
  else
    match w with
    | [] => [w]  -- unreachable: length ≥ 3
    | c :: rest => validateSyllables (sspScan [c] c rest)

/-! ## Whitespace tokenizer and sentence segmenter
(`tokenize/sentence.go`, `WhitespaceTokenizer.Tokenize`, `language/language.go`) -/

/-- The loop behind `strings.Fields`: split on runs of white space, keeping
only the non-empty fields.  `cur` is the field accumulated so far. -/
def fieldsAux (cur : List Char) : List Char → List (List Char)
  | [] => if cur.isEmpty then [] else [cur]
  | c :: rest =>
    if isSpace c then
      if cur.isEmpty then fieldsAux [] rest else cur :: fieldsAux [] rest
    else fieldsAux (cur ++ [c]) rest

/-- Model of `WhitespaceTokenizer.Tokenize`, i.e. Go's `strings.Fields`: the maximal
white-space-free substrings of the input, in order. -/
def fields (s : List Char) : List (List Char) := fieldsAux [] s

/-- The constant `language.SENTENCE_PUNCTUATION_ENGLISH = ".!?"`. -/
def sentencePunctuationEnglish : List Char := ['.', '!', '?']

/-- The constant `language.SENTENCE_STOP_WORDS_ENGLISH`. -/
def sentenceStopWordsEnglish : List (List Char) :=
  ["Mr.".data, "Mrs.".data, "Ms.".data, "Dr.".data, "Hon.".data]

/-- Go's `strings.LastIndexAny(s, chars)`: the index of the last occurrence
in `s` of any code point of `chars`, or `-1` if none occurs.  (Go returns a
byte index; over the code points the claims exercise the two coincide, and
the model indexes code points.) -/
def lastIndexAny (s : List Char) (chars : List Char) : Int :=
  match s with
  | [] => -1
  | c :: rest =>
    let r := lastIndexAny rest chars
    if r ≥ 0 then r + 1
    else if c ∈ chars then 0 else -1

/-- Model of `endsSentence` from `tokenize/sentence.go`: a non-empty token ends a
sentence iff its last code point is sentence punctuation
(`strings.LastIndexAny(token, punctuation) == len(token)-1`), it is not a
stop word (`slices.Contains`), and it does not contain more than one `'.'`
(`1 < strings.Count(token, ".")` suppresses initialisms). -/
def endsSentence (token : List Char) (punctuation : List Char)
    (stopWords : List (List Char)) : Bool :=
  if token.isEmpty then false
  else
    let endsInPunct := lastIndexAny token punctuation = (token.length : Int) - 1
    let isStopWord := decide (token ∈ stopWords)
    let isInitialism := 1 < token.count '.'
    endsInPunct && !(isStopWord || isInitialism)

/-- The state of the loop in `SentenceSegmenter.Tokenize`:
`(sentences, sentence, prevWord)`. -/
def sentStep (punctuation : List Char) (stopWords : List (List Char))
    (st : List (List Char) × List Char × List Char) (word : List Char) :
    List (List Char) × List Char × List Char :=
  let sentence :=
    if st.2.2.isEmpty || endsSentence st.2.2 punctuation stopWords then word
    else st.2.1 ++ ' ' :: word
  let sentences :=
    if endsSentence word punctuation stopWords then st.1 ++ [sentence] else st.1
  (sentences, sentence, word)

/-- Model of `SentenceSegmenter.Tokenize` (English configuration; the error result is
always nil and is omitted): split the chunk into white-space-delimited words,
accumulate sentences joined by single spaces, emit a sentence whenever a word
ends one, and after the loop append the `sentence` accumulator if it is
non-empty. -/
def sentTokenize (chunk : List Char) : List (List Char) :=
  let st := (fields chunk).foldl
    (sentStep sentencePunctuationEnglish sentenceStopWordsEnglish) ([], [], [])
  if st.2.1.isEmpty then st.1 else st.1 ++ [st.2.1]

/-! ## Specification-level description of the validation pass

A second, independently structured description of the validation pass, used
to state the amended form of the merge claim: the input is cut into segments
at the punctuation/whitespace singleton units (which are themselves dropped,
as are empty syllables), and within each segment a vowel-less syllable is
merged into the preceding accumulated syllable. -/

/-- Merge a segment of syllables left to right, appending each vowel-less
syllable to the accumulated one; `cur` is the accumulated syllable. -/
def mergeGo (cur : List Char) : List (List Char) → List (List Char)
  | [] => [cur]
  | s :: rest => if hasVowel s then cur :: mergeGo s rest else mergeGo (cur ++ s) rest

/-- Merge every vowel-less syllable of a segment into the preceding
accumulated syllable; a leading vowel-less syllable starts the accumulator. -/
def mergeVowelless : List (List Char) → List (List Char)
  | [] => []
  | s :: rest => mergeGo s rest

/-- Cut a syllable list into the segments delimited by the
punctuation/whitespace singleton units, dropping the units themselves and
every empty syllable.  The result is never `[]`. -/
def segments : List (List Char) → List (List (List Char))
  | [] => [[]]
  | s :: rest =>
    if s.isEmpty then segments rest
    else if isSepUnit s then [] :: segments rest
    else
      match segments rest with
      | seg :: segs => (s :: seg) :: segs
      | [] => [[s]]  -- unreachable: `segments` never returns `[]`

/-! ## Spec-modelled Porter2-style stemmer

Modelled from the spec: the stemmer implementation
(`stemming.Porter2Stemmer.Stem` of package `pkg/stemming`) is not present
among the sources; only its test harness `pkg/stemming/stemmer_test.go` is.
The definitions below model §4.1 of the specification: whole-word
irregular-stem exceptions checked first, an apostrophe-normalization step,
region markers R1/R2 computed once over the normalized word, and an ordered
sequence of rule steps, each a list of (suffix, action, guard) rules tried
in order with longer suffixes first; a step whose rules all fail to match
leaves the word unchanged. -/

/-- Vowel test used by the region computation (spec §4.1 step 2). -/
def isStemVowel (c : Char) : Bool := decide (c ∈ ['a', 'e', 'i', 'o', 'u', 'y'])

/-- Modelled from the spec: the offset after the first vowel-then-non-vowel
pair scanning from the start; the whole length when there is no such pair. -/
def vnvOffset : List Char → Nat
  | a :: b :: rest =>
    if isStemVowel a && !(isStemVowel b) then 2 else 1 + vnvOffset (b :: rest)
  | l => l.length

/-- Modelled from the spec: the fixed set of prefixes given a special-cased
shorter R1 (spec §4.1 step 2), with their R1 offsets. -/
def shortR1Prefixes : List (List Char × Nat) :=
  [("gener".data, 5), ("commun".data, 6), ("arsen".data, 5)]

/-- Modelled from the spec: the R1 region marker of a word. -/
def r1Of (w : List Char) : Nat :=
  match shortR1Prefixes.find? (fun p => p.1.isPrefixOf w) with
  | some p => p.2
  | none => vnvOffset w

/-- Modelled from the spec: the R2 region marker, the R1 rule applied again
starting the scan at R1. -/
def r2Of (w : List Char) : Nat := r1Of w + vnvOffset (List.drop (r1Of w) w)

/-- Modelled from the spec: one suffix rule of a rule step.  `guard` and
`action` receive the stem (the word with the suffix removed) and the
precomputed region markers. -/
structure StemRule where
  suffix : List Char
  guard : List Char → Nat → Nat → Bool
  action : List Char → Nat → Nat → List Char

/-- Does `rule` fire on `w` (suffix matches and guard accepts the stem)? -/
def ruleMatches (w : List Char) (r1 r2 : Nat) (rule : StemRule) : Bool :=
  rule.suffix.isSuffixOf w && rule.guard (w.take (w.length - rule.suffix.length)) r1 r2

/-- Apply the first firing rule of a step; a step none of whose rules fire
leaves the word unchanged (spec §7: "no match" is success). -/
def applyStep (w : List Char) (r1 r2 : Nat) : List StemRule → List Char
  | [] => w
  | rule :: rest =>
    if ruleMatches w r1 r2 rule then
      rule.action (w.take (w.length - rule.suffix.length)) r1 r2
    else applyStep w r1 r2 rest

/-- Guard accepting every stem. -/
def alwaysOk : List Char → Nat → Nat → Bool := fun _ _ _ => true

/-- Guard: the matched suffix lies within R1 (stem length at least R1). -/
def guardInR1 : List Char → Nat → Nat → Bool := fun stem r1 _ => r1 ≤ stem.length

/-- Guard: the matched suffix lies within R2. -/
def guardInR2 : List Char → Nat → Nat → Bool := fun stem _ r2 => r2 ≤ stem.length

/-- Guard: the stem contains a vowel. -/
def guardHasVowel : List Char → Nat → Nat → Bool := fun stem _ _ => stem.any isStemVowel

/-- Action replacing the matched suffix by a fixed string. -/
def replaceWith (repl : List Char) : List Char → Nat → Nat → List Char :=
  fun stem _ _ => stem ++ repl

/-- A plain suffix-replacement rule with a guard. -/
def rule (suffix repl : String) (g : List Char → Nat → Nat → Bool) : StemRule :=
  ⟨suffix.data, g, replaceWith repl.data⟩

/-- Modelled from the spec: does the word end in a short-syllable pattern
(non-vowel, vowel, non-vowel reading from the end, or vowel-then-non-vowel
for a two-letter word)? -/
def endsShortSyllable (w : List Char) : Bool :=
  match w.reverse with
  | c :: v :: [] => !(isStemVowel c) && isStemVowel v
  | c :: v :: d :: _ => !(isStemVowel c) && isStemVowel v && !(isStemVowel d)
  | _ => false

/-- Modelled from the spec: the cleanup after removing "ed"/"ing" forms:
undouble a doubled "tt"/"bb"/"gg", or append "e" when the stem now ends in a
short-syllable pattern within R1. -/
def edIngCleanup : List Char → Nat → Nat → List Char := fun stem r1 _ =>
  if ("tt".data.isSuffixOf stem || "bb".data.isSuffixOf stem || "gg".data.isSuffixOf stem) then
    stem.take (stem.length - 1)
  else if stem.length = r1 && endsShortSyllable stem then stem ++ ['e']
  else stem

/-- Modelled from the spec: the plural / verb-form step (step 3). -/
def pluralStep : List StemRule :=
  [rule "sses" "ss" alwaysOk,
   ⟨"ied".data, alwaysOk, fun stem _ _ => if 1 < stem.length then stem ++ "i".data else stem ++ "ie".data⟩,
   ⟨"ies".data, alwaysOk, fun stem _ _ => if 1 < stem.length then stem ++ "i".data else stem ++ "ie".data⟩,
   ⟨"s".data,
    (fun stem _ _ => stem.dropLast.any isStemVowel),
    replaceWith []⟩]

/-- Modelled from the spec: the past-tense / -ing step (step 4), with the
double-consonant / short-word cleanup folded into the rule actions. -/
def edIngStep : List StemRule :=
  [rule "eedly" "ee" guardInR1,
   rule "eed" "ee" guardInR1,
   ⟨"edly".data, guardHasVowel, edIngCleanup⟩,
   ⟨"ingly".data, guardHasVowel, edIngCleanup⟩,
   ⟨"ed".data, guardHasVowel, edIngCleanup⟩,
   ⟨"ing".data, guardHasVowel, edIngCleanup⟩]

/-- Modelled from the spec: the Y→I step (step 5): a trailing "y"/"Y"
becomes "i" when preceded by a non-vowel and the word is longer than the
replaced suffix plus that preceding character. -/
def yToIStep : List StemRule :=
  [⟨"y".data, (fun stem _ _ => 1 < stem.length && !(isStemVowel (stem.getLastD 'a'))), replaceWith "i".data⟩,
   ⟨"Y".data, (fun stem _ _ => 1 < stem.length && !(isStemVowel (stem.getLastD 'a'))), replaceWith "i".data⟩]

/-- Modelled from the spec: the long-suffix replacement step (step 6),
gated on R1, longest suffixes first. -/
def longSuffixStep : List StemRule :=
  [rule "ization" "ize" guardInR1,
   rule "ational" "ate" guardInR1,
   rule "fulness" "ful" guardInR1,
   rule "ousness" "ous" guardInR1,
   rule "iveness" "ive" guardInR1,
   rule "tional" "tion" guardInR1,
   rule "biliti" "ble" guardInR1,
   rule "lessli" "less" guardInR1,
   rule "entli" "ent" guardInR1,
   rule "ation" "ate" guardInR1,
   rule "alism" "al" guardInR1,
   rule "aliti" "al" guardInR1,
   rule "ousli" "ous" guardInR1,
   rule "iviti" "ive" guardInR1,
   rule "fulli" "ful" guardInR1,
   rule "enci" "ence" guardInR1,
   rule "anci" "ance" guardInR1,
   rule "abli" "able" guardInR1,
   rule "izer" "ize" guardInR1,
   rule "ator" "ate" guardInR1,
   rule "alli" "al" guardInR1,
   rule "bli" "ble" guardInR1,
   rule "ogi" "og" guardInR1]

/-- Modelled from the spec: the secondary long-suffix step (step 7),
gated on R1. -/
def secondaryLongSuffixStep : List StemRule :=
  [rule "ational" "ate" guardInR1,
   rule "tional" "tion" guardInR1,
   rule "alize" "al" guardInR1,
   rule "icate" "ic" guardInR1,
   rule "iciti" "ic" guardInR1,
   rule "ical" "ic" guardInR1,
   rule "ness" "" guardInR1,
   rule "ful" "" guardInR1]

/-- Modelled from the spec: the R2-gated suffix removal step (step 8);
"ion" is removed only when preceded by "s" or "t". -/
def r2SuffixStep : List StemRule :=
  [rule "ement" "" guardInR2,
   rule "ance" "" guardInR2,
   rule "ence" "" guardInR2,
   rule "able" "" guardInR2,
   rule "ible" "" guardInR2,
   rule "ment" "" guardInR2,
   ⟨"ion".data,
    (fun stem _ r2 => (r2 ≤ stem.length) && (stem.getLastD ' ' = 's' || stem.getLastD ' ' = 't')),
    replaceWith []⟩,
   rule "ant" "" guardInR2,
   rule "ent" "" guardInR2,
   rule "ism" "" guardInR2,
   rule "ate" "" guardInR2,
   rule "iti" "" guardInR2,
   rule "ous" "" guardInR2,
   rule "ive" "" guardInR2,
   rule "ize" "" guardInR2,
   rule "al" "" guardInR2,
   rule "er" "" guardInR2,
   rule "ic" "" guardInR2]

/-- Modelled from the spec: the final cleanup step (step 9): drop a
trailing "e" in R2, or in R1 when the remaining stem does not end in a
short-syllable pattern; drop one "l" of a trailing double "l" in R2. -/
def finalCleanupStep : List StemRule :=
  [⟨"e".data,
    (fun stem _ r2 => r2 ≤ stem.length),
    replaceWith []⟩,
   ⟨"e".data,
    (fun stem r1 _ => r1 ≤ stem.length && !(endsShortSyllable stem)),
    replaceWith []⟩,
   ⟨"l".data,
    (fun stem _ r2 => r2 ≤ stem.length && stem.getLastD ' ' = 'l'),
    replaceWith []⟩]

/-- Modelled from the spec: the ordered rule steps of the stemmer. -/
def stemmerSteps : List (List StemRule) :=
  [pluralStep, edIngStep, yToIStep, longSuffixStep, secondaryLongSuffixStep,
   r2SuffixStep, finalCleanupStep]

/-- Modelled from the spec: representative irregular-stem whole-word
overrides checked before every step. -/
def stemExceptions : List (List Char × List Char) :=
  [("skis".data, "ski".data), ("skies".data, "sky".data),
   ("dying".data, "die".data), ("lying".data, "lie".data),
   ("tying".data, "tie".data), ("news".data, "news".data)]

/-- Modelled from the spec: strip one leading apostrophe. -/
def stripLeadingApostrophe : List Char → List Char
  | c :: rest => if c = '\x27' then rest else c :: rest
  | [] => []

/-- Modelled from the spec: the fixed table normalizing possessive-like
trailing apostrophe forms, longest first. -/
def apostropheSuffixTable : List (List Char × List Char) :=
  [(['\x27', 's', '\x27'], ['s']), (['\x27', 's'], ['s']), (['\x27'], [])]

/-- Modelled from the spec: replace a trailing apostrophe form using the
first matching table entry; no match leaves the word unchanged. -/
def normalizeTrailingApostrophe (w : List Char) : List Char :=
  match apostropheSuffixTable.find? (fun p => p.1.isSuffixOf w) with
  | some p => w.take (w.length - p.1.length) ++ p.2
  | none => w

/-- Modelled from the spec: the apostrophe-normalization step (step 1). -/
def normalizeApostrophe (w : List Char) : List Char :=
  normalizeTrailingApostrophe (stripLeadingApostrophe w)

/-- Does any rule of any step fire on `v` under its (fixed) region markers?
Used to state the "no rule matched" hypothesis. -/
def anyRuleMatches (v : List Char) : Bool :=
  stemmerSteps.any (fun st => st.any (ruleMatches v (r1Of v) (r2Of v)))

/-- Modelled from the spec: the stemmer's `Stem`: irregular-stem exceptions
bypass everything; otherwise the apostrophe-normalized word, with R1/R2
computed once, flows through the ordered rule steps. -/
def porterStem (w : List Char) : List Char :=
  match stemExceptions.find? (fun p => p.1 = w) with
  | some p => p.2
  | none =>
    let v := normalizeApostrophe w
    stemmerSteps.foldl (fun u st => applyStep u (r1Of v) (r2Of v) st) v

/-! ## Theorems -/

/-- C1: the claim says concatenating all units returned by
`SSPSyllableTokenizer.Tokenize`, including the punctuation/space singleton
units, reconstructs the input word.  The code violates this (and its own
test `sonority_test.go/Punctuation`, which expects
`["i","ce","-","ni","ne"]`): `validateSyllables` flushes the accumulator at
a punctuation/whitespace singleton unit but never emits the unit itself, so
on "ice-nine" the "-" is dropped and the concatenation is "icenine". -/
theorem ssp_concat_drops_punct_c1 :
    sspTokenize "ice-nine".data = ["i".data, "ce".data, "ni".data, "ne".data] ∧
    (sspTokenize "ice-nine".data).flatten ≠ "ice-nine".data := by
  decide

/-- C2: the claim says `SentenceSegmenter.Tokenize` on
"Dr. Smith left. He returned." returns exactly the two sentences, with no
sentence repeated.  The abbreviation "Dr." indeed does not split, but the
final `if sentence != ""` append runs even when the last word already ended
(and emitted) the final sentence, so the code returns three elements with
"He returned." duplicated. -/
theorem sentence_dr_smith_c2 :
    sentTokenize "Dr. Smith left. He returned.".data =
      ["Dr. Smith left.".data, "He returned.".data, "He returned.".data] := by
  decide

/-- C3: the claim says joining the returned sentences with single spaces
reproduces the whitespace-normalized input.  The duplicated final sentence
breaks this whenever the text ends with a sentence-ending word: on "Hi." the
code returns ["Hi.", "Hi."], whose join is "Hi. Hi.". -/
theorem sentence_join_c3 :
    sentTokenize "Hi.".data = ["Hi.".data, "Hi.".data] ∧
    List.intercalate " ".data (sentTokenize "Hi.".data) ≠
      List.intercalate " ".data (fields "Hi.".data) := by
  decide

/-- C6: `SSPSyllableTokenizer.Tokenize` on "justification" returns exactly
["jus", "ti", "fi", "ca", "tion"]. -/
theorem ssp_justification_c6 :
    sspTokenize "justification".data =
      ["jus".data, "ti".data, "fi".data, "ca".data, "tion".data] := by
  decide

/-- C7: every word of at most two code points (including the empty word and
pure-punctuation words) is returned unconditionally as the one-element
sequence containing the word itself. -/
theorem ssp_short_word_c7 (w : List Char) (h : w.length ≤ 2) :
    sspTokenize w = [w] := by
  simp [sspTokenize, h]

/-- Witness for C7 at the two-punctuation degenerate word "!?". -/
theorem ssp_short_word_c7_witness :
    "!?".data.length ≤ 2 ∧ sspTokenize "!?".data = ["!?".data] :=
  ⟨by decide, ssp_short_word_c7 "!?".data (by decide)⟩

/-- C4, counterexample: the claim says the punctuation/whitespace singleton
units are preserved unmerged in the output of the validation pass, and that
a vowel-less syllable is merged into the *following* syllable containing a
vowel.  Both parts fail: on "a-b" the scan emits the "-" unit but the
output ["a", "b"] does not contain it; on "ab9ed" the vowel-less digit unit
"9" is merged into the *preceding* syllable, giving ["ab9", "ed"] rather
than ["ab", "9ed"]. -/
theorem validate_merge_counterexample_c4 :
    sspTokenize "a-b".data = ["a".data, "b".data] ∧
    "-".data ∉ sspTokenize "a-b".data ∧
    sspTokenize "ab9ed".data = ["ab9".data, "ed".data] ∧
    "9ed".data ∉ sspTokenize "ab9ed".data := by
  decide

/-- Any hit of `lastIndexAny` is a position strictly inside the string. -/
theorem lastIndexAny_lt_length (s cs : List Char) :
    lastIndexAny s cs < (s.length : Int) := by
  induction s with
  | nil => simp [lastIndexAny]
  | cons c rest ih =>
    simp only [lastIndexAny, List.length_cons]
    by_cases h : lastIndexAny rest cs ≥ 0
    · rw [if_pos h]; push_cast; omega
    · rw [if_neg h]
      by_cases hc : c ∈ cs
      · rw [if_pos hc]; push_cast; omega
      · rw [if_neg hc]; push_cast; omega

/-- Computation rule for `lastIndexAny` on a word with its last code point
exposed. -/
theorem lastIndexAny_concat (t : List Char) (c : Char) (cs : List Char) :
    lastIndexAny (t ++ [c]) cs =
      if c ∈ cs then (t.length : Int) else lastIndexAny t cs := by
  induction t with
  | nil => by_cases hc : c ∈ cs <;> simp [lastIndexAny, hc]
  | cons a t' ih =>
    by_cases hc : c ∈ cs
    · simp only [List.cons_append, lastIndexAny, List.append_eq, ih, if_pos hc,
        List.length_cons]
      rw [if_pos (by positivity)]
      push_cast; ring
    · simp only [List.cons_append, lastIndexAny, List.append_eq, ih, if_neg hc]

/-- C5: for every non-empty whitespace-delimited token, `endsSentence`
holds iff the token's last code point is one of `.`, `!`, `?`, the token is
not (by exact, case-sensitive whole-token comparison) an English
abbreviation stop word, and the token contains at most one `.`. -/
theorem endsSentence_iff_c5 (token : List Char) (h : token ≠ []) :
    endsSentence token sentencePunctuationEnglish sentenceStopWordsEnglish = true ↔
      (token.getLast h ∈ sentencePunctuationEnglish ∧
       token ∉ sentenceStopWordsEnglish ∧ token.count '.' ≤ 1) := by
  obtain ⟨t, c, rfl⟩ : ∃ t c, token = t ++ [c] := by
    rcases List.eq_nil_or_concat token with h0 | ⟨t, c, h0⟩
    · exact absurd h0 h
    · exact ⟨t, c, by rw [h0, List.concat_eq_append]⟩
  rw [endsSentence, if_neg (by simp)]
  simp only [Bool.and_eq_true, Bool.not_eq_true', Bool.or_eq_false_iff,
    decide_eq_true_eq, decide_eq_false_iff_not, lastIndexAny_concat,
    List.getLast_concat, List.length_append, List.length_cons, List.length_nil]
  by_cases hc : c ∈ sentencePunctuationEnglish
  · rw [if_pos hc]
    constructor
    · rintro ⟨-, hstop, hinit⟩
      exact ⟨hc, hstop, by omega⟩
    · rintro ⟨-, hstop, hinit⟩
      refine ⟨by push_cast; ring, hstop, by omega⟩
  · rw [if_neg hc]
    constructor
    · rintro ⟨habs, -, -⟩
      have := lastIndexAny_lt_length t sentencePunctuationEnglish
      exfalso; omega
    · rintro ⟨hc', -, -⟩
      exact absurd hc' hc

/-- Witness for C5 at the token "left.". -/
theorem endsSentence_iff_c5_witness :
    "left.".data ≠ [] ∧
      (endsSentence "left.".data sentencePunctuationEnglish
          sentenceStopWordsEnglish = true ↔
        ("left.".data.getLast (by decide) ∈ sentencePunctuationEnglish ∧
         "left.".data ∉ sentenceStopWordsEnglish ∧
         "left.".data.count '.' ≤ 1)) :=
  ⟨by decide, endsSentence_iff_c5 "left.".data (by decide)⟩

/-- The empty token never ends a sentence. -/
theorem endsSentence_nil (punctuation : List Char) (stopWords : List (List Char)) :
    endsSentence [] punctuation stopWords = false := by
  simp [endsSentence]

/-- C9: whenever the final whitespace-delimited word of the input satisfies
the sentence-ending predicate, the sentence emitted for it inside the loop
is emitted again by the unconditional trailing `if sentence != ""` append,
so the returned sequence ends in two equal elements. -/
theorem sentence_duplicate_final_c9 (chunk : List Char) (h : fields chunk ≠ [])
    (he : endsSentence ((fields chunk).getLast h) sentencePunctuationEnglish
        sentenceStopWordsEnglish = true) :
    ∃ pre s, sentTokenize chunk = pre ++ [s, s] := by
  have hdec := List.dropLast_append_getLast h
  have hwne : (fields chunk).getLast h ≠ [] := by
    intro h0
    rw [h0, endsSentence_nil] at he
    exact Bool.false_ne_true he
  have hfold : (fields chunk).foldl
        (sentStep sentencePunctuationEnglish sentenceStopWordsEnglish) ([], [], []) =
      sentStep sentencePunctuationEnglish sentenceStopWordsEnglish
        ((fields chunk).dropLast.foldl
          (sentStep sentencePunctuationEnglish sentenceStopWordsEnglish) ([], [], []))
        ((fields chunk).getLast h) := by
    conv_lhs => rw [← hdec]
    rw [List.foldl_append, List.foldl_cons, List.foldl_nil]
  set st := (fields chunk).dropLast.foldl
      (sentStep sentencePunctuationEnglish sentenceStopWordsEnglish) ([], [], []) with hst
  set w := (fields chunk).getLast h with hwdef
  set sen : List Char :=
    if st.2.2.isEmpty || endsSentence st.2.2 sentencePunctuationEnglish
        sentenceStopWordsEnglish then w
    else st.2.1 ++ ' ' :: w with hsen
  have hsen_ne : ¬ sen = [] := by
    rw [hsen]
    split
    · exact hwne
    · simp
  have hstep : sentStep sentencePunctuationEnglish sentenceStopWordsEnglish st w =
      (st.1 ++ [sen], sen, w) := by
    rw [sentStep]
    simp only [he, if_true, ← hsen]
  refine ⟨st.1, sen, ?_⟩
  rw [sentTokenize, hfold, hstep]
  simp only [List.isEmpty_eq_true, hsen_ne, if_false, List.append_assoc,
    List.singleton_append]

/-- Witness for C9 at the text "Hi.", whose output is ["Hi.", "Hi."]. -/
theorem sentence_duplicate_final_c9_witness :
    ∃ pre s, sentTokenize "Hi.".data = pre ++ [s, s] :=
  sentence_duplicate_final_c9 "Hi.".data (by decide) (by decide)

/-- A digit code point is not punctuation, not white space, and not one of
the scored vowels. -/
theorem isNumber_not_special (c : Char) (h : isNumber c = true) :
    isPunct c = false ∧ isSpace c = false ∧ decide (c ∈ score3Runes) = false := by
  simp only [isNumber, goDigitChars, decide_eq_true_eq, List.mem_cons,
    List.mem_singleton, List.not_mem_nil, or_false] at h
  rcases h with rfl | rfl | rfl | rfl | rfl | rfl | rfl | rfl | rfl | rfl <;> decide

/-- A syllable made of digits is never a separator unit. -/
theorem isSepUnit_digits (s : List Char) (h : ∀ c ∈ s, isNumber c = true) :
    isSepUnit s = false := by
  match s with
  | [] => rfl
  | [c] =>
    obtain ⟨hp, hs, -⟩ := isNumber_not_special c (h c (by simp))
    simp [isSepUnit, hp, hs]
  | a :: b :: t => rfl

/-- A syllable made of digits contains no vowel. -/
theorem hasVowel_digits (s : List Char) (h : ∀ c ∈ s, isNumber c = true) :
    hasVowel s = false := by
  simp only [hasVowel, List.any_eq_false]
  intro c hc
  simp [(isNumber_not_special c (h c hc)).2.2]

/-- The scan of an all-digit tail: every emitted unit is made of digits and
the concatenation of the scan output is the accumulated syllable followed by
the tail. -/
theorem sspScan_digits (l : List Char) : ∀ (syl : List Char) (prev : Char),
    (∀ c ∈ l, isNumber c = true) → (∀ c ∈ syl, isNumber c = true) →
    (sspScan syl prev l).flatten = syl ++ l ∧
      ∀ s ∈ sspScan syl prev l, ∀ c ∈ s, isNumber c = true := by
  induction l with
  | nil =>
    intro syl prev _ hsyl
    refine ⟨by simp [sspScan], ?_⟩
    intro s hs
    simp only [sspScan, List.mem_singleton] at hs
    subst hs
    exact hsyl
  | cons a t ih =>
    intro syl prev hl hsyl
    have ha := hl a (by simp)
    obtain ⟨hap, has, -⟩ := isNumber_not_special a ha
    cases t with
    | nil =>
      rw [sspScan, if_neg (by simp [hap])]
      refine ⟨by simp, ?_⟩
      intro s hs
      simp only [List.mem_singleton] at hs
      subst hs
      intro c hc
      rcases List.mem_append.mp hc with hc | hc
      · exact hsyl c hc
      · simp only [List.mem_singleton] at hc; subst hc; exact ha
    | cons b t' =>
      rw [sspScan, if_pos (by simp [ha])]
      obtain ⟨ihj, ihm⟩ := ih [] a
        (fun c hc => hl c (List.mem_cons_of_mem a hc)) (by simp)
      constructor
      · simp [ihj]
      · intro s hs
        rcases List.mem_cons.mp hs with rfl | hs
        · exact hsyl
        · rcases List.mem_cons.mp hs with rfl | hs
          · intro c hc
            simp only [List.mem_singleton] at hc
            subst hc
            exact ha
          · exact ihm s hs

/-- The validation loop over all-digit syllables merges everything into a
single unit (or nothing at all when everything is empty). -/
theorem validateLoop_digits (syls : List (List Char)) : ∀ (current : List Char),
    (∀ s ∈ syls, ∀ c ∈ s, isNumber c = true) →
    (∀ c ∈ current, isNumber c = true) →
    validateLoop current syls =
      if (current ++ syls.flatten).isEmpty then [] else [current ++ syls.flatten] := by
  induction syls with
  | nil => intro current _ _; simp [validateLoop]
  | cons s rest ih =>
    intro current hall hcur
    have hs : ∀ c ∈ s, isNumber c = true := hall s (by simp)
    have hrest : ∀ x ∈ rest, ∀ c ∈ x, isNumber c = true :=
      fun x hx => hall x (List.mem_cons_of_mem s hx)
    by_cases hse : s.isEmpty
    · have hs0 : s = [] := List.isEmpty_iff.mp hse
      subst hs0
      rw [validateLoop, if_pos (by simp), ih current hrest hcur]
      simp
    · rw [validateLoop, if_neg (by simp [hse]), if_neg (by simp [isSepUnit_digits s hs])]
      by_cases hce : current.isEmpty
      · have hc0 : current = [] := List.isEmpty_iff.mp hce
        subst hc0
        rw [if_pos (by simp), ih s hrest hs]
        simp
      · rw [if_neg (by simp [hce]), if_neg (by simp [hasVowel_digits s hs]),
          ih (current ++ s) hrest ?_]
        · simp
        · intro c hc
          rcases List.mem_append.mp hc with hc | hc
          · exact hcur c hc
          · exact hs c hc

/-- C10: a word of three or more code points consisting entirely of digits
is returned as the one-element sequence containing the word itself: the
digit singleton units emitted by the scan are all vowel-less non-separator
units, so the validation pass merges them back into a single unit. -/
theorem ssp_digits_c10 (w : List Char) (h3 : 3 ≤ w.length)
    (hd : ∀ c ∈ w, isNumber c = true) : sspTokenize w = [w] := by
  obtain ⟨c0, t0, rfl⟩ : ∃ c0 t0, w = c0 :: t0 := by
    cases w with
    | nil => simp at h3
    | cons a t => exact ⟨a, t, rfl⟩
  obtain ⟨c1, t1, rfl⟩ : ∃ c1 t1, t0 = c1 :: t1 := by
    cases t0 with
    | nil => simp at h3
    | cons a t => exact ⟨a, t, rfl⟩
  obtain ⟨c2, t2, rfl⟩ : ∃ c2 t2, t1 = c2 :: t2 := by
    cases t1 with
    | nil => simp at h3
    | cons a t => exact ⟨a, t, rfl⟩
  have h0 : isNumber c0 = true := hd c0 (by simp)
  have h1 : isNumber c1 = true := hd c1 (by simp)
  have hrest : ∀ c ∈ c2 :: t2, isNumber c = true :=
    fun c hc => hd c (List.mem_cons_of_mem c0 (List.mem_cons_of_mem c1 hc))
  obtain ⟨hj, hm⟩ := sspScan_digits (c2 :: t2) [] c1 hrest (by simp)
  have hmem : ∀ s ∈ [c0] :: [c1] :: sspScan [] c1 (c2 :: t2),
      ∀ c ∈ s, isNumber c = true := by
    intro s hs
    rcases List.mem_cons.mp hs with rfl | hs
    · intro c hc
      simp only [List.mem_singleton] at hc
      subst hc
      exact h0
    · rcases List.mem_cons.mp hs with rfl | hs
      · intro c hc
        simp only [List.mem_singleton] at hc
        subst hc
        exact h1
      · exact hm s hs
  have hssp : sspTokenize (c0 :: c1 :: c2 :: t2) =
      validateSyllables (sspScan [c0] c0 (c1 :: c2 :: t2)) := by
    rw [sspTokenize, if_neg (by simp)]
  rw [hssp, sspScan, if_pos (by simp [h1]), validateSyllables, if_neg (by simp),
    validateLoop_digits _ [] hmem (by simp)]
  simp [hj]

/-- Witness for C10 at the all-digit word "999". -/
theorem ssp_digits_c10_witness :
    3 ≤ "999".data.length ∧ sspTokenize "999".data = ["999".data] :=
  ⟨by decide, ssp_digits_c10 "999".data (by decide) (by decide)⟩

/-- Computation rule: an empty syllable is skipped by `segments`. -/
theorem segments_cons_empty (rest : List (List Char)) :
    segments ([] :: rest) = segments rest := by
  simp [segments]

/-- Computation rule: a separator unit opens a new segment and is dropped. -/
theorem segments_cons_sep (s : List Char) (rest : List (List Char))
    (h1 : s ≠ []) (h2 : isSepUnit s = true) :
    segments (s :: rest) = [] :: segments rest := by
  rw [segments, if_neg (by simp [h1]), if_pos h2]

/-- The segment list is never empty. -/
theorem segments_ne_nil (syls : List (List Char)) : segments syls ≠ [] := by
  induction syls with
  | nil => simp [segments]
  | cons s rest ih =>
    rw [segments]
    by_cases h1 : s.isEmpty
    · rw [if_pos h1]; exact ih
    · rw [if_neg h1]
      by_cases h2 : isSepUnit s
      · simp [h2]
      · rw [if_neg (by simp [h2])]
        obtain ⟨seg, segs, hseg⟩ := List.exists_cons_of_ne_nil ih
        rw [hseg]
        simp

/-- Computation rule: an ordinary syllable is prepended to the first
segment. -/
theorem segments_cons_norm (s : List Char) (rest : List (List Char))
    (h1 : s ≠ []) (h2 : isSepUnit s = false) (seg : List (List Char))
    (segs : List (List (List Char))) (hseg : segments rest = seg :: segs) :
    segments (s :: rest) = (s :: seg) :: segs := by
  rw [segments, if_neg (by simp [h1]), if_neg (by simp [h2]), hseg]

/-- Computation rule: an empty syllable is skipped by `validateLoop`. -/
theorem validateLoop_nil_head (current : List Char) (rest : List (List Char)) :
    validateLoop current ([] :: rest) = validateLoop current rest := by
  rw [validateLoop]
  simp

/-- Computation rule: a separator unit flushes the accumulator. -/
theorem validateLoop_sep_head (current s : List Char) (rest : List (List Char))
    (h1 : s ≠ []) (h2 : isSepUnit s = true) :
    validateLoop current (s :: rest) =
      if current.isEmpty then validateLoop [] rest
      else current :: validateLoop [] rest := by
  rw [validateLoop, if_neg (by simp [h1]), if_pos h2]

/-- Computation rule: an ordinary syllable starts, splits or extends the
accumulator according to the vowel test. -/
theorem validateLoop_norm_head (current s : List Char) (rest : List (List Char))
    (h1 : s ≠ []) (h2 : isSepUnit s = false) :
    validateLoop current (s :: rest) =
      if current.isEmpty then validateLoop s rest
      else if hasVowel s then current :: validateLoop s rest
      else validateLoop (current ++ s) rest := by
  rw [validateLoop, if_neg (by simp [h1]), if_neg (by simp [h2])]

/-- The validation loop coincides with the segment-and-merge description:
with an empty accumulator it produces the merged segments; with a non-empty
accumulator the accumulator is merged into the first segment. -/
theorem validateLoop_segments (syls : List (List Char)) :
    validateLoop [] syls = ((segments syls).map mergeVowelless).flatten ∧
    ∀ current seg segs, current ≠ [] → segments syls = seg :: segs →
      validateLoop current syls =
        mergeGo current seg ++ (segs.map mergeVowelless).flatten := by
  induction syls with
  | nil =>
    refine ⟨by simp [validateLoop, segments, mergeVowelless], ?_⟩
    intro current seg segs hc hseg
    rw [segments] at hseg
    obtain ⟨ha, hb⟩ := List.cons.inj hseg
    subst ha
    subst hb
    rw [validateLoop, if_neg (by simp [hc])]
    simp [mergeGo]
  | cons s rest ih =>
    by_cases h1 : s = []
    · subst h1
      refine ⟨?_, ?_⟩
      · rw [validateLoop_nil_head, segments_cons_empty]
        exact ih.1
      · intro current seg segs hc hseg
        rw [segments_cons_empty] at hseg
        rw [validateLoop_nil_head]
        exact ih.2 current seg segs hc hseg
    · by_cases h2 : isSepUnit s
      · refine ⟨?_, ?_⟩
        · rw [validateLoop_sep_head [] s rest h1 h2, if_pos (by simp),
            segments_cons_sep s rest h1 h2]
          simp only [List.map_cons, List.flatten_cons, mergeVowelless,
            List.nil_append]
          exact ih.1
        · intro current seg segs hc hseg
          rw [segments_cons_sep s rest h1 h2] at hseg
          obtain ⟨ha, hb⟩ := List.cons.inj hseg
          subst ha
          subst hb
          rw [validateLoop_sep_head current s rest h1 h2,
            if_neg (by simp [hc]), ih.1]
          simp [mergeGo]
      · have h2f : isSepUnit s = false := by simpa using h2
        obtain ⟨seg0, segs0, hseg0⟩ :=
          List.exists_cons_of_ne_nil (segments_ne_nil rest)
        have hsegcons := segments_cons_norm s rest h1 h2f seg0 segs0 hseg0
        have hihs := ih.2 s seg0 segs0 h1 hseg0
        refine ⟨?_, ?_⟩
        · rw [validateLoop_norm_head [] s rest h1 h2f, if_pos (by simp),
            hsegcons]
          simp only [List.map_cons, List.flatten_cons, mergeVowelless]
          exact hihs
        · intro current seg segs hc hseg
          rw [hsegcons] at hseg
          obtain ⟨ha, hb⟩ := List.cons.inj hseg
          subst ha
          subst hb
          rw [validateLoop_norm_head current s rest h1 h2f,
            if_neg (by simp [hc])]
          by_cases hv : hasVowel s
          · rw [if_pos hv, hihs, mergeGo, if_pos hv, List.cons_append]
          · rw [if_neg hv, ih.2 (current ++ s) seg0 segs0 (by simp [hc]) hseg0,
              mergeGo, if_neg hv]

/-- C4, amended: in the validation pass a vowel-less syllable is merged
into the *preceding* accumulated syllable (a leading vowel-less syllable
starts the accumulator), and every punctuation/whitespace single-character
unit is *dropped* from the output while acting as a hard separator that
flushes the accumulator on both sides: the pass equals cutting the input
into segments at the separator units and merging each segment. -/
theorem validate_merge_amended_c4 (syls : List (List Char))
    (h : 2 ≤ syls.length) :
    validateSyllables syls = ((segments syls).map mergeVowelless).flatten := by
  rw [validateSyllables, if_neg (by omega)]
  exact (validateLoop_segments syls).1

/-- Witness for the amended C4 on a syllable list with a separator unit and
a vowel-less syllable. -/
theorem validate_merge_amended_c4_witness :
    2 ≤ ([['a', 'b'], ['-'], ['x', 'z'], ['e', 'd']] : List (List Char)).length ∧
      validateSyllables [['a', 'b'], ['-'], ['x', 'z'], ['e', 'd']] =
        ((segments [['a', 'b'], ['-'], ['x', 'z'], ['e', 'd']]).map
          mergeVowelless).flatten :=
  ⟨by decide, validate_merge_amended_c4 _ (by decide)⟩

/-- A rule step none of whose rules fire leaves the word unchanged. -/
theorem applyStep_no_match (w : List Char) (r1 r2 : Nat) (st : List StemRule)
    (h : st.any (ruleMatches w r1 r2) = false) :
    applyStep w r1 r2 st = w := by
  induction st with
  | nil => rfl
  | cons rule rest ih =>
    simp only [List.any_cons, Bool.or_eq_false_iff] at h
    rw [applyStep, if_neg (by simp [h.1])]
    exact ih h.2

/-- When no rule of any step fires, the whole rule pipeline leaves the word
unchanged. -/
theorem foldlSteps_no_match (v : List Char) (r1 r2 : Nat) :
    ∀ steps : List (List StemRule),
      (∀ st ∈ steps, st.any (ruleMatches v r1 r2) = false) →
      steps.foldl (fun u st => applyStep u r1 r2 st) v = v := by
  intro steps
  induction steps with
  | nil => intro _; rfl
  | cons st rest ih =>
    intro h
    rw [List.foldl_cons, applyStep_no_match v r1 r2 st (h st (by simp))]
    exact ih (fun x hx => h x (List.mem_cons_of_mem st hx))

/-- C8 (settled against the spec-modelled stemmer, whose implementation is
absent from the sources): `Stem` is a total function — in particular it
maps the empty string to the empty string — and any input that is not an
irregular-stem exception and on which no rule of any step fires is returned
unchanged after the apostrophe-normalization step. -/
theorem porterStem_total_c8 :
    porterStem [] = [] ∧
    ∀ w, stemExceptions.find? (fun p => p.1 = w) = none →
      anyRuleMatches (normalizeApostrophe w) = false →
      porterStem w = normalizeApostrophe w := by
  constructor
  · decide
  · intro w hexc hnone
    rw [porterStem]
    simp only [hexc]
    rw [anyRuleMatches] at hnone
    rw [List.any_eq_false] at hnone
    refine foldlSteps_no_match (normalizeApostrophe w)
      (r1Of (normalizeApostrophe w)) (r2Of (normalizeApostrophe w))
      stemmerSteps ?_
    intro st hst
    simpa using hnone st hst

/-- Witness for C8 at the word "xq", which no rule matches. -/
theorem porterStem_total_c8_witness : porterStem "xq".data = "xq".data := by
  have h := porterStem_total_c8.2 "xq".data (by decide) (by decide)
  exact h.trans (by decide)

end NLP
